import Mathlib

/-!
Verification of the filter/feature pipeline of the Outlook email-analysis
dashboard (`outlook-email-analysis-dashboard.py`).

The script's core is a sequence of pure transformations over an in-memory
table: date parsing and calendar-field derivation, body cleaning via a
case-insensitive regex built from configurable keywords, a
date/sender/keyword filter, and aggregate features (daily counts, burst
detection via mean + 2 * sample standard deviation, a weekday/hour heatmap,
politeness and anomaly rules).  Those transformations are embedded here as
executable Lean functions over lists of characters and records, and the
specification's claims about them are proved or refuted below.

Texts are modelled as `List Char`; floating-point arithmetic of the source
(pandas/numpy over small integer counts) is modelled exactly with `Int`,
`Rat` and `Real`.
-/

/-! ## Character-level model of Python's case-insensitive matching

The script builds regexes with the `(?i)` flag; two characters are treated
as equal when their lowercase forms agree (`Char.toLower` models Python's
ASCII-range lowercasing used by `re.IGNORECASE` on these inputs). -/

/-- Case-insensitive character equality, as used by the `(?i)` regex flag. -/
def ciEq (a b : Char) : Bool := a.toLower == b.toLower

/-- `ciStarts k s` holds when keyword `k` matches the first `k.length`
characters of `s` case-insensitively: the model of matching the
`re.escape`d keyword part of the pattern at the current position. -/
def ciStarts (k s : List Char) : Bool :=
  match k, s with
  | [], _ => true
  | _ :: _, [] => false
  | a :: as, b :: bs => ciEq a b && ciStarts as bs

/-- Length of the initial `'\n'`-free run of `s`: exactly the number of
characters the greedy `.*` of the pattern consumes (Python's `.` does not
match a newline without `re.DOTALL`). -/
def lineLen (s : List Char) : Nat := (s.takeWhile (fun c => c != '\n')).length

/-- The match length of the alternation `k1.*|k2.*|...` (each `ki`
`re.escape`d, case-insensitive) at the start of `s`: the first keyword in
list order that matches yields `its length + lineLen (rest)`, mirroring
Python's alternation priority and the greedy `.*`.  `none` when no
alternative matches. -/
def altMatchLen (kws : List (List Char)) (s : List Char) : Option Nat :=
  match kws with
  | [] => none
  | k :: rest =>
      if ciStarts k s then some (k.length + lineLen (s.drop k.length))
      else altMatchLen rest s

/-- Worker for the model of `re.sub(pattern, "", text)` with the pattern
`(?i)(k1.*|k2.*|...)`: scan left to right; `skip` counts characters still
inside a match being deleted.  Outside a match, if the alternation matches
with nonzero length `n + 1`, delete the current character and the `n`
following ones and continue after the match; otherwise keep the character.
A zero-length match (an empty keyword at a newline or at the end) is
replaced by the empty string and the scan advances one character, which
leaves the text unchanged — exactly Python's behaviour for empty matches
with an empty replacement. -/
def reSubGo (kws : List (List Char)) : List Char → Nat → List Char
  | [], _ => []
  | _ :: rest, skip + 1 => reSubGo kws rest skip
  | c :: rest, 0 =>
      match altMatchLen kws (c :: rest) with
      | some (n + 1) => reSubGo kws rest n
      | _ => c :: reSubGo kws rest 0

/-- Model of `re.sub(pattern, "", text)` for the keyword-cleanup pattern:
delete every (leftmost, non-overlapping) match of the alternation. -/
def reSubKw (kws : List (List Char)) (s : List Char) : List Char :=
  reSubGo kws s 0

/-- Python whitespace stripped by `str.strip()` (ASCII part, which covers
the corpus). -/
def pySpace (c : Char) : Bool :=
  c == ' ' || c == '\t' || c == '\n' || c == '\r' || c == '\x0b' || c == '\x0c'

/-- Model of Python's `str.strip()`: drop leading and trailing whitespace. -/
def pyStrip (s : List Char) : List Char :=
  ((s.dropWhile pySpace).reverse.dropWhile pySpace).reverse

/-- `clean_body` of the source: build the case-insensitive alternation
`(?i)(k1.*|...)` from the cleanup keywords, delete every match from the
text, then strip surrounding whitespace. -/
def clean_body (kws : List (List Char)) (text : List Char) : List Char :=
  pyStrip (reSubKw kws text)

/-- The configured `BODY_CLEANUP_KEYWORDS` of the source. -/
def bodyCleanupKeywords : List (List Char) :=
  [String.toList "kind regards", String.toList "best regards",
   String.toList "thanks", String.toList "thank you", String.toList "sincerely"]

/-- String wrapper for `clean_body`. -/
def cleanBodyS (kws : List (List Char)) (text : String) : String :=
  (clean_body kws text.toList).asString

/-! ## Data model

A normalized row of the table after `dropna`, date parsing and body
cleaning.  `Subject` and `Body` are kept as `Option String` so that the
`na=False` semantics of `pandas.Series.str.contains` (a missing value never
matches) is expressible; the normalizer itself always produces `some`.
`dateOnly` is the calendar day as a civil day number, `month` is the
year-month period encoded as `year * 100 + month` (whose numeric order
agrees with the lexicographic order of the `"YYYY-MM"` labels the source
uses). -/
structure Email where
  sender : String
  subject : Option String
  body : Option String
  dateOnly : Nat
  hour : Nat
  weekday : String
  month : Nat
  deriving Repr, DecidableEq

/-- The sidebar filter state: inclusive date bounds, the sender
multi-select (empty list = no restriction, matching Python's truthiness
test on the list) and the keyword text (empty string = no keyword filter,
matching `if keyword:`). -/
structure FilterSpec where
  start_date : Nat
  end_date : Nat
  senders : List String
  keyword : String
  deriving Repr, DecidableEq

/-! ## Date parsing and calendar features -/

/-- Civil day number of a Gregorian date (days since 0000-03-01, via the
standard era decomposition); it is the day-granularity value backing
`DateOnly` comparisons and the weekday derivation. -/
def daysFromCivil (y m d : Nat) : Nat :=
  let y' := if m ≤ 2 then y - 1 else y
  let era := y' / 400
  let yoe := y' % 400
  let mp := (m + 9) % 12
  let doy := (153 * mp + 2) / 5 + d - 1
  let doe := yoe * 365 + yoe / 4 - yoe / 100 + doy
  era * 146097 + doe

/-- English weekday names indexed so that `daysFromCivil` modulo 7 selects
the correct name (day number 0 is a Wednesday), matching
`Series.dt.day_name()`. -/
def weekdayName (days : Nat) : String :=
  (["Wednesday", "Thursday", "Friday", "Saturday", "Sunday", "Monday",
    "Tuesday"].getD (days % 7) "")

/-- Number of days in a month of the proleptic Gregorian calendar. -/
def daysInMonth (y m : Nat) : Nat :=
  if m = 2 then (if y % 4 = 0 ∧ (y % 100 ≠ 0 ∨ y % 400 = 0) then 29 else 28)
  else if m = 4 ∨ m = 6 ∨ m = 9 ∨ m = 11 then 30 else 31

/-- Decimal digit value of a character, `none` when it is not a digit. -/
def digitVal (c : Char) : Option Nat :=
  if c.isDigit then some (c.toNat - 48) else none

/-- Strict parser for the source's expected timestamp format
`"%d/%m/%Y %I:%M:%S %p"` (`DD/MM/YYYY hh:mm:ss AM/PM`, zero-padded
two-digit fields as in the exported corpus).  Returns
`(year, month, day, hour24, minute, second)`, or `none` when the text does
not match the format or encodes an invalid date — the rows
`pd.to_datetime(..., errors='coerce')` turns into `NaT` and the pipeline
drops. -/
def parseDateFmt (s : List Char) : Option (Nat × Nat × Nat × Nat × Nat × Nat) :=
  match s with
  | [d1, d2, '/', m1, m2, '/', y1, y2, y3, y4, ' ',
     h1, h2, ':', n1, n2, ':', s1, s2, ' ', a1, a2] =>
      match digitVal d1, digitVal d2, digitVal m1, digitVal m2,
            digitVal y1, digitVal y2, digitVal y3, digitVal y4,
            digitVal h1, digitVal h2, digitVal n1, digitVal n2,
            digitVal s1, digitVal s2 with
      | some d1, some d2, some m1, some m2, some y1, some y2, some y3,
        some y4, some h1, some h2, some n1, some n2, some s1, some s2 =>
          let day := d1 * 10 + d2
          let mon := m1 * 10 + m2
          let year := y1 * 1000 + y2 * 100 + y3 * 10 + y4
          let h12 := h1 * 10 + h2
          let minu := n1 * 10 + n2
          let sec := s1 * 10 + s2
          let pm := a1 = 'P'
          if (a1 = 'A' ∨ a1 = 'P') ∧ a2 = 'M' ∧ 1 ≤ mon ∧ mon ≤ 12 ∧
             1 ≤ day ∧ day ≤ daysInMonth year mon ∧ 1 ≤ h12 ∧ h12 ≤ 12 ∧
             minu < 60 ∧ sec < 60 then
            some (year, mon, day, h12 % 12 + (if pm then 12 else 0), minu, sec)
          else none
      | _, _, _, _, _, _, _, _, _, _, _, _, _, _ => none
  | _ => none

/-! ## Normalizer -/

/-- A raw row of the loaded file before normalization: any required field
may be missing (`NaN`). -/
structure RawEmail where
  sender : Option String
  subject : Option String
  body : Option String
  date : Option String
  deriving Repr, DecidableEq

/-- The normalization pipeline of the source, in its order: drop rows with
a missing required field (`dropna`), parse `Date` with the fixed format and
drop rows that fail (`errors='coerce'` + `dropna`), derive `DateOnly`,
`Hour`, `Weekday` and `Month`, and clean the body with the configured
cleanup keywords. -/
def loadNormalize (kws : List (List Char)) (rows : List RawEmail) : List Email :=
  rows.filterMap fun r =>
    match r.sender, r.subject, r.body, r.date with
    | some sd, some sj, some b, some dt =>
        (parseDateFmt dt.toList).map fun p =>
          let days := daysFromCivil p.1 p.2.1 p.2.2.1
          { sender := sd
            subject := some sj
            body := some (cleanBodyS kws b)
            dateOnly := days
            hour := p.2.2.2.1
            weekday := weekdayName days
            month := p.1 * 100 + p.2.1 }
    | _, _, _, _ => none

/-! ## The keyword search (`Series.str.contains`)

`filtered_df['Subject'].str.contains(keyword, case=False, na=False)`
interprets the keyword as a *regular expression* (`regex=True` is the
pandas default) compiled with `re.IGNORECASE`, and runs `re.search` on each
value.  The model below covers the regex fragment in which every pattern
character is either the wildcard `.` (matching any character except a
newline) or a literal (every other character taken literally); it is
faithful to `re.search` exactly for patterns containing no metacharacter
other than `.`. -/

/-- Python regex metacharacters.  A keyword free of all of them is matched
literally by `re.search`; the model `reSearch` additionally handles `.`. -/
def isReMeta (c : Char) : Bool :=
  c == '.' || c == '^' || c == '$' || c == '*' || c == '+' || c == '?' ||
  c == '{' || c == '}' || c == '[' || c == ']' || c == '\\' || c == '|' ||
  c == '(' || c == ')'

/-- Match the pattern against the head of the text: `.` matches any
non-newline character, anything else matches case-insensitively as a
literal. -/
def reMatchHere (pat s : List Char) : Bool :=
  match pat, s with
  | [], _ => true
  | _ :: _, [] => false
  | p :: ps, c :: cs =>
      (if p = '.' then c != '\n' else ciEq p c) && reMatchHere ps cs

/-- `re.search` over the dot-and-literals fragment: the pattern matches at
some position of the text. -/
def reSearch (pat : List Char) : List Char → Bool := fun s =>
  reMatchHere pat s ||
    match s with
    | [] => false
    | _ :: cs => reSearch pat cs

/-- `Series.str.contains(pat, case=False, na=False)` on one cell: a missing
value never matches; otherwise regex search. -/
def strContainsO (pat : String) (cell : Option String) : Bool :=
  match cell with
  | none => false
  | some s => reSearch pat.toList s.toList

/-- The `Body` half of the keyword mask
(`filtered_df['Body'].str.contains(keyword, case=False, na=False)`). -/
def bodyMask (k : String) (e : Email) : Bool := strContainsO k e.body

/-- The row-level keyword mask: Subject match OR Body match. -/
def kwMask (k : String) (e : Email) : Bool :=
  strContainsO k e.subject || bodyMask k e

/-! ## Filter engine -/

/-- `apply(table, spec)` of the source: keep rows whose `DateOnly` lies in
the inclusive `[start_date, end_date]` range; then, when the sender
multi-select is nonempty, keep rows whose sender is selected; then, when
the keyword text is nonempty, keep rows matching the keyword mask.  Order
is preserved (pandas boolean-mask selection). -/
def applyFilter (spec : FilterSpec) (t : List Email) : List Email :=
  let t1 := t.filter fun e =>
    decide (spec.start_date ≤ e.dateOnly) && decide (e.dateOnly ≤ spec.end_date)
  let t2 := if spec.senders = [] then t1
            else t1.filter fun e => spec.senders.contains e.sender
  if spec.keyword = "" then t2 else t2.filter (kwMask spec.keyword)

/-- `df['DateOnly'].min()` over the normalized table (0 on the empty table,
where the source would produce `NaN`; no claim depends on that value). -/
def minDateOnly (t : List Email) : Nat :=
  match t.map (·.dateOnly) with
  | [] => 0
  | d :: ds => ds.foldl min d

/-- `df['DateOnly'].max()` over the normalized table. -/
def maxDateOnly (t : List Email) : Nat :=
  match t.map (·.dateOnly) with
  | [] => 0
  | d :: ds => ds.foldl max d

/-- The literal case-insensitive substring relation — the specification's
reading of the keyword search ("case-insensitive substring match against
Subject OR Body").  Used to compare the source's regex behaviour against
the spec's words. -/
def ciSubstring (k : List Char) : List Char → Bool := fun s =>
  ciStarts k s ||
    match s with
    | [] => false
    | _ :: cs => ciSubstring k cs

/-- `ciSubstring` lifted to an optional cell, with a missing value never
matching. -/
def ciSubstringO (k : String) (cell : Option String) : Bool :=
  match cell with
  | none => false
  | some s => ciSubstring k.toList s.toList

/-! ## Daily counts and burst detection

`daily_counts = filtered_df.groupby('DateOnly').size()` gives one integer
count per distinct calendar day (pandas sorts the group keys);
`threshold = mean + 2 * std` uses the pandas sample standard deviation
(`ddof=1`), which is `NaN` when there are fewer than two groups, and every
comparison with `NaN` is false, so no day is flagged then.  For two or more
days the strict comparison `count > mean + 2 * std` is equivalent, in exact
arithmetic, to `0 < dev ∧ 4 * S < dev^2 * (n - 1)` where
`dev = n * count - total` and `S = Σ (n * cᵢ - total)^2`; the definition
below uses that square-root-free integer form (the bridge to the
`mean + 2 * √variance` formulation is proved in the claim's theorem). -/

/-- The distinct `DateOnly` values of the table, sorted ascending (the
index of `groupby('DateOnly').size()`). -/
def dailyDates (t : List Email) : List Nat :=
  ((t.map (·.dateOnly)).dedup).insertionSort (· ≤ ·)

/-- Number of rows of the table falling on calendar day `d`. -/
def dayCount (t : List Email) (d : Nat) : Nat :=
  t.countP fun e => e.dateOnly == d

/-- `groupby('DateOnly').size()`: each distinct day with its count. -/
def dailyCounts (t : List Email) : List (Nat × Nat) :=
  (dailyDates t).map fun d => (d, dayCount t d)

/-- Sum of the per-day counts. -/
def countsTotal (counts : List (Nat × Nat)) : Int :=
  (counts.map fun p => (p.2 : Int)).sum

/-- `n * count - total` for one day: the count's deviation from the mean,
scaled by the number of days. -/
def countDev (counts : List (Nat × Nat)) (c : Nat) : Int :=
  counts.length * (c : Int) - countsTotal counts

/-- `Σ (n * cᵢ - total)^2`: the scaled sum of squared deviations. -/
def countsSqDev (counts : List (Nat × Nat)) : Int :=
  (counts.map fun p => countDev counts p.2 ^ 2).sum

/-- Mean of the per-day counts (`daily_counts.mean()`), as a rational. -/
def countsMean (counts : List (Nat × Nat)) : ℚ :=
  (countsTotal counts : ℚ) / counts.length

/-- Sample variance of the per-day counts — the square of
`daily_counts.std()` (pandas `ddof=1`) — as a rational; only meaningful
when there are at least two days. -/
def countsSVar (counts : List (Nat × Nat)) : ℚ :=
  (countsSqDev counts : ℚ) / ((counts.length : ℚ) ^ 2 * ((counts.length : ℚ) - 1))

/-- `daily_counts[daily_counts > mean + 2 * std]`: the burst days.  With
fewer than two days the sample standard deviation is `NaN` and the
comparison is false everywhere, hence the empty result; otherwise the
integer form of the strict threshold comparison is used (see the section
comment). -/
def burstOfCounts (counts : List (Nat × Nat)) : List Nat :=
  if counts.length < 2 then []
  else
    counts.filterMap fun p =>
      if 0 < countDev counts p.2 ∧
         4 * countsSqDev counts <
           countDev counts p.2 ^ 2 * ((counts.length : Int) - 1)
      then some p.1 else none

/-- The burst days of the filtered table. -/
def burstDays (t : List Email) : List Nat := burstOfCounts (dailyCounts t)

/-! ## Heatmap by weekday and hour

`filtered_df.groupby(['Weekday','Hour']).size().unstack(fill_value=0)`
yields a matrix whose rows are the weekdays *present in the data* and whose
columns are the hours *present in the data* (sorted); `fill_value=0` fills
the cells of present weekdays.  The subsequent
`reindex(['Monday',...,'Sunday'])` fixes the row order but fills the rows
of absent weekdays with `NaN`, not 0 — modelled as `none`. -/

/-- The fixed weekday row order used by `reindex`. -/
def weekdayOrder : List String :=
  ["Monday", "Tuesday", "Wednesday", "Thursday", "Friday", "Saturday", "Sunday"]

/-- The distinct hours present in the table, sorted (the columns of the
unstacked matrix). -/
def hoursPresent (t : List Email) : List Nat :=
  ((t.map (·.hour)).dedup).insertionSort (· ≤ ·)

/-- Whether some row of the table falls on the given weekday. -/
def wdPresent (t : List Email) (w : String) : Bool :=
  t.any fun e => e.weekday == w

/-- Number of rows with the given weekday and hour. -/
def cntWH (t : List Email) (w : String) (h : Nat) : Nat :=
  t.countP fun e => e.weekday == w && e.hour == h

/-- The reindexed heatmap matrix: one entry per weekday in the fixed
Monday-to-Sunday order; a present weekday carries its row of per-hour
counts over the observed-hour columns (0 where the pair has no emails), an
absent weekday carries `none` (the all-`NaN` row `reindex` introduces). -/
def heatmap_data (t : List Email) : List (String × Option (List (Nat × Nat))) :=
  weekdayOrder.map fun w =>
    (w, if wdPresent t w
        then some ((hoursPresent t).map fun h => (h, cntWH t w h))
        else none)

/-! ## Tokenization, bigrams and word cloud input -/

/-- One step of `tokenize` from the source: lowercase and delete every
character that is not ASCII-alphanumeric and not whitespace
(`re.sub(r"[^a-zA-Z0-9\s]", "", text.lower())`). -/
def tokClean (s : List Char) : List Char :=
  (s.map Char.toLower).filter fun c => c.isAlphanum || pySpace c

/-- `str.split()`: split on runs of whitespace, discarding empty pieces. -/
def pySplitWs (s : List Char) : List (List Char) :=
  ((s.splitOnP pySpace).filter fun w => ¬ w.isEmpty)

/-- `tokenize(text)` of the source: clean, split on whitespace, keep words
longer than two characters that are not stopwords. -/
def tokenize (stop : List String) (text : String) : List String :=
  (((pySplitWs (tokClean text.toList)).map List.asString).filter
    fun w => w.length > 2 && !stop.contains w)

/-- Token counts over all subject lines of the filtered table, in
first-seen order (the `Counter` the source builds). -/
def subjectWordCounts (stop : List String) (t : List Email) : List (String × Nat) :=
  let toks := (t.filterMap (·.subject)).flatMap (tokenize stop)
  toks.dedup.map fun w => (w, toks.count w)

/-- The `CountVectorizer` token pattern `\b\w\w+\b`: maximal runs of word
characters (ASCII alphanumeric or underscore), lowercased, keeping runs of
length at least two. -/
def cvTokens (stop : List String) (text : String) : List String :=
  ((((text.toList.map Char.toLower).splitOnP
      (fun c => !(c.isAlphanum || c == '_'))).filter
        fun w => w.length ≥ 2).map List.asString).filter
    fun w => !stop.contains w

/-- Contiguous bigrams of one subject line after `CountVectorizer`
tokenization and stop-word removal. -/
def cvBigrams (stop : List String) (text : String) : List String :=
  let toks := cvTokens stop text
  (toks.zip toks.tail).map fun p => p.1 ++ " " ++ p.2

/-- Bigram counts over all subject lines (`fillna("")` makes a missing
subject the empty document). -/
def bigramCounts (stop : List String) (t : List Email) : List (String × Nat) :=
  let bgs := (t.map fun e => (e.subject.getD "")).flatMap (cvBigrams stop)
  bgs.dedup.map fun w => (w, bgs.count w)

/-- `" ".join(filtered_df['Body'].astype(str))`: the word-cloud input blob
(a missing body would print as `"nan"`, which `astype(str)` produces). -/
def wordCloudText (t : List Email) : String :=
  String.intercalate " " (t.map fun e => e.body.getD "nan")

/-! ## Politeness, sentiment and the anomaly rule -/

/-- The fixed polite-phrase list of the source. -/
def politePhrases : List String :=
  ["kind regards", "best regards", "thank you", "thanks", "sincerely",
   "please", "appreciate"]

/-- Whether a row's body contains any polite phrase
(`Body.str.lower().str.contains('|'.join(re.escape(p) ...), na=False)`:
an alternation of escaped literals over the lowercased body is exactly a
case-insensitive substring test, and a missing value never matches). -/
def politeBody (e : Email) : Bool :=
  match e.body with
  | none => false
  | some b => politePhrases.any fun p => ciSubstring p.toList b.toList

/-- `polite_count / len(filtered_df)` with the source's
`if len(filtered_df) > 0 else 0` guard. -/
def politeRatio (t : List Email) : ℚ :=
  if t.length = 0 then 0 else (t.countP politeBody : ℚ) / t.length

/-- `filtered_df['Polarity'].mean()` where the per-row polarity is an
arbitrary assignment `pol` from the body to a score — the TextBlob
sentiment scorer is an external collaborator, so the rules are proved for
every possible assignment. -/
def avgPolarity (pol : Option String → ℚ) (t : List Email) : ℚ :=
  (t.map fun e => pol e.body).sum / t.length

/-- The overall anomaly flag of the insight summary:
`not burst_days.empty or polite_ratio < 0.2 or avg_polarity < -0.1`. -/
def anomalyFlag (pol : Option String → ℚ) (t : List Email) : Bool :=
  !(burstDays t).isEmpty || decide (politeRatio t < 1 / 5) ||
    decide (avgPolarity pol t < -(1 / 10))

/-! ## The feature functions with their empty-table guards

Every dashboard section is wrapped in `if not filtered_df.empty: ... else
"no data"`; each guarded feature is modelled as an `Option`, with `none`
the displayed "no data" state.  The NER section additionally bounds its
input to a random sample of at most 50 bodies before calling the external
Stanza pipeline; only the guard and the sample bound are part of the
embeddable computation. -/

/-- Emails-by-date histogram input (the `DateOnly` column). -/
def volumeByDateFeature (t : List Email) : Option (List Nat) :=
  if t.isEmpty then none else some (t.map (·.dateOnly))

/-- The weekday/hour heatmap. -/
def heatmapFeature (t : List Email) : Option (List (String × Option (List (Nat × Nat)))) :=
  if t.isEmpty then none else some (heatmap_data t)

/-- Monthly counts (`groupby('Month').size()`, chronological order). -/
def monthlyCounts (t : List Email) : List (Nat × Nat) :=
  (((t.map (·.month)).dedup).insertionSort (· ≤ ·)).map
    fun m => (m, t.countP fun e => e.month == m)

/-- The monthly-trend feature. -/
def monthlyFeature (t : List Email) : Option (List (Nat × Nat)) :=
  if t.isEmpty then none else some (monthlyCounts t)

/-- `Sender.value_counts().head(20)`: senders with their counts, descending
by count (stable on ties), top 20. -/
def topSenders (t : List Email) : List (String × Nat) :=
  ((((t.map (·.sender)).dedup).map fun s => (s, t.countP fun e => e.sender == s)
    ).insertionSort fun a b => b.2 ≤ a.2).take 20

/-- The top-senders feature. -/
def topSendersFeature (t : List Email) : Option (List (String × Nat)) :=
  if t.isEmpty then none else some (topSenders t)

/-- The burst-detection feature. -/
def burstFeature (t : List Email) : Option (List Nat) :=
  if t.isEmpty then none else some (burstDays t)

/-- The common-subject-words feature. -/
def commonWordsFeature (stop : List String) (t : List Email) :
    Option (List (String × Nat)) :=
  if t.isEmpty then none else some (subjectWordCounts stop t)

/-- The subject-bigrams feature. -/
def bigramsFeature (stop : List String) (t : List Email) :
    Option (List (String × Nat)) :=
  if t.isEmpty then none else some (bigramCounts stop t)

/-- The word-cloud-input feature. -/
def wordCloudFeature (t : List Email) : Option String :=
  if t.isEmpty then none else some (wordCloudText t)

/-- The NER feature's embeddable part: the size of the random body sample
handed to the external Stanza pipeline (`min(50, len(filtered_df))`). -/
def nerFeature (t : List Email) : Option Nat :=
  if t.isEmpty then none else some (min 50 t.length)

/-- The sentiment feature: the polarity column, for an arbitrary external
polarity assignment. -/
def sentimentFeature (pol : Option String → ℚ) (t : List Email) :
    Option (List ℚ) :=
  if t.isEmpty then none else some (t.map fun e => pol e.body)

/-- The insight-summary feature: on a nonempty table it computes, among the
rule outputs, the overall anomaly flag; on the empty table the source
prints "No data available ... to generate insights." -/
def insightFeature (pol : Option String → ℚ) (t : List Email) : Option Bool :=
  if t.isEmpty then none else some (anomalyFlag pol t)

/-! ## Proof-support definitions

`reSubKw` factors through the newline structure of the text (no keyword
match can cross a newline when no keyword contains one); the following
definitions expose that structure for the idempotence proof. -/

/-- Whether some keyword of the list matches case-insensitively at the
start of `l`. -/
def hasKwStart (kws : List (List Char)) (l : List Char) : Bool :=
  kws.any fun k => ciStarts k l

/-- Truncation of a single newline-free line at the first position where a
keyword matches: the effect of one `k.*` deletion inside one line. -/
def truncLine (kws : List (List Char)) : List Char → List Char
  | [] => []
  | c :: rest =>
      if hasKwStart kws (c :: rest) then [] else c :: truncLine kws rest

/-- Split a character list at newlines (`"ab\nc"` becomes
`[['a','b'], ['c']]`; always nonempty). -/
def splitNl : List Char → List (List Char)
  | [] => [[]]
  | c :: rest =>
      if c = '\n' then [] :: splitNl rest
      else
        match splitNl rest with
        | [] => [[c]]
        | l :: ls => (c :: l) :: ls

/-- Rejoin lines with newlines: the inverse of `splitNl`. -/
def joinNl : List (List Char) → List Char
  | [] => []
  | [l] => l
  | l :: ls => l ++ '\n' :: joinNl ls

/-- Whether the keyword alternation produces a nonzero-length (hence
text-deleting) match at the start of `s`. -/
def liveAt (kws : List (List Char)) (s : List Char) : Bool :=
  match altMatchLen kws s with
  | some (_ + 1) => true
  | _ => false

/-- No suffix of `o` carries a deleting match: on such a text `reSubKw` is
the identity. -/
def noLive (kws : List (List Char)) (o : List Char) : Prop :=
  ∀ t, t <:+ o → liveAt kws t = false

/-- A newline-free line none of whose nonempty suffixes starts a keyword
match: the shape of the lines `truncLine` produces. -/
def lineClean (kws : List (List Char)) (l : List Char) : Prop :=
  '\n' ∉ l ∧ ∀ t, t <:+ l → t ≠ [] → hasKwStart kws t = false

/-! # Theorems -/

/-! ## Shared helper lemmas -/

/-- A left fold with `min` is a lower bound of the start and of every
element. -/
theorem foldl_min_le (ds : List Nat) (d : Nat) :
    ds.foldl min d ≤ d ∧ ∀ x ∈ ds, ds.foldl min d ≤ x := by
  induction ds generalizing d with
  | nil => simp
  | cons a as ih =>
      refine ⟨?_, ?_⟩
      · exact le_trans (ih (min d a)).1 (min_le_left d a)
      · intro x hx
        rcases List.mem_cons.mp hx with rfl | hx
        · exact le_trans (ih (min d x)).1 (min_le_right d x)
        · exact (ih (min d a)).2 x hx

/-- A left fold with `max` is an upper bound of the start and of every
element. -/
theorem le_foldl_max (ds : List Nat) (d : Nat) :
    d ≤ ds.foldl max d ∧ ∀ x ∈ ds, x ≤ ds.foldl max d := by
  induction ds generalizing d with
  | nil => simp
  | cons a as ih =>
      refine ⟨?_, ?_⟩
      · exact le_trans (le_max_left d a) (ih (max d a)).1
      · intro x hx
        rcases List.mem_cons.mp hx with rfl | hx
        · exact le_trans (le_max_right d x) (ih (max d x)).1
        · exact (ih (max d a)).2 x hx

/-- `minDateOnly` bounds every row's day from below. -/
theorem minDateOnly_le {t : List Email} {e : Email} (he : e ∈ t) :
    minDateOnly t ≤ e.dateOnly := by
  have hm : e.dateOnly ∈ t.map (·.dateOnly) := List.mem_map_of_mem _ he
  unfold minDateOnly
  rcases hl : t.map (·.dateOnly) with _ | ⟨d, ds⟩
  · rw [hl] at hm; cases hm
  · rw [hl] at hm
    rw [hl]
    rcases List.mem_cons.mp hm with h | h
    · subst h; exact (foldl_min_le ds _).1
    · exact (foldl_min_le ds d).2 _ h

/-- `maxDateOnly` bounds every row's day from above. -/
theorem le_maxDateOnly {t : List Email} {e : Email} (he : e ∈ t) :
    e.dateOnly ≤ maxDateOnly t := by
  have hm : e.dateOnly ∈ t.map (·.dateOnly) := List.mem_map_of_mem _ he
  unfold maxDateOnly
  rcases hl : t.map (·.dateOnly) with _ | ⟨d, ds⟩
  · rw [hl] at hm; cases hm
  · rw [hl] at hm
    rw [hl]
    rcases List.mem_cons.mp hm with h | h
    · subst h; exact (le_foldl_max ds _).1
    · exact (le_foldl_max ds d).2 _ h

/-! ## C1: the trivial filter is the identity -/

/-- C1.  With an empty sender selection, no keyword, and the inclusive date
range running from the table's minimum to its maximum `DateOnly`, `apply`
returns the normalized table unchanged in order and content (the source
never mutates its input: the embedding is a pure function whose result here
is the input itself).  Date bounds are inclusive at day granularity and an
empty sender selection is the identity. -/
theorem c1_trivial_filter_identity (t : List Email) (spec : FilterSpec)
    (hs : spec.senders = []) (hk : spec.keyword = "")
    (h1 : spec.start_date = minDateOnly t) (h2 : spec.end_date = maxDateOnly t) :
    applyFilter spec t = t := by
  have hfull : (t.filter fun e =>
      decide (spec.start_date ≤ e.dateOnly) &&
        decide (e.dateOnly ≤ spec.end_date)) = t := by
    refine List.filter_eq_self.mpr fun e he => ?_
    rw [h1, h2]
    simp only [Bool.and_eq_true, decide_eq_true_eq]
    exact ⟨minDateOnly_le he, le_maxDateOnly he⟩
  simp [applyFilter, hs, hk, hfull]

/-- Witness for C1 at a concrete two-row table. -/
theorem c1_trivial_filter_identity_witness :
    applyFilter ⟨739251, 739252, [], ""⟩
      [⟨"a@x.com", some "s1", some "b1", 739251, 9, "Friday", 202403⟩,
       ⟨"b@x.com", some "s2", some "b2", 739252, 10, "Saturday", 202403⟩] =
      [⟨"a@x.com", some "s1", some "b1", 739251, 9, "Friday", 202403⟩,
       ⟨"b@x.com", some "s2", some "b2", 739252, 10, "Saturday", 202403⟩] :=
  c1_trivial_filter_identity _ _ rfl rfl (by decide) (by decide)

/-! ## C6: the concrete normalization scenario -/

/-- C6.  Normalizing the row with `Date = "01/03/2024 09:15:00 AM"`,
`Subject = "Re: Invoice"`, `Sender = "a@x.com"`,
`Body = "Please review. Kind regards, A"` under the default cleanup
keywords yields `Body = "Please review."`, `Weekday = "Friday"` and
`Hour = 9` (1 March 2024 is a Friday; 09:15 AM is hour 9). -/
theorem c6_normalization_scenario :
    (loadNormalize bodyCleanupKeywords
        [⟨some "a@x.com", some "Re: Invoice",
          some "Please review. Kind regards, A",
          some "01/03/2024 09:15:00 AM"⟩]).map
      (fun e => (e.body, e.weekday, e.hour)) =
      [(some "Please review.", "Friday", 9)] := by
  decide

/-! ## C4: the burst scenario of the specification -/

/-- C4 counterexample.  On the daily counts `{d1:5, d2:6, d3:4, d4:40}` the
source flags no burst day at all — in particular `d4` is *not* flagged,
contrary to the claim: the mean is 13.75, the sample standard deviation is
about 17.52 (population: about 15.17), so `mean + 2 * std ≈ 48.79`
(population: `≈ 44.09`) exceeds 40. -/
theorem c4_counterexample :
    ¬ (4 ∈ burstOfCounts [(1, 5), (2, 6), (3, 4), (4, 40)]) := by
  decide

/-- C4 amended.  On the daily counts `{d1:5, d2:6, d3:4, d4:40}` the mean
is 13.75 and burst detection flags no day (40 does not exceed
`mean + 2 * std` for the sample standard deviation the source uses, nor
would it for the population one). -/
theorem c4_amended_no_burst :
    countsMean [(1, 5), (2, 6), (3, 4), (4, 40)] = 55 / 4 ∧
      burstOfCounts [(1, 5), (2, 6), (3, 4), (4, 40)] = [] := by
  constructor
  · norm_num [countsMean, countsTotal]
  · decide

/-! ## C7: every feature tolerates the empty table -/

/-- C7.  On the empty filtered table every feature — the volume aggregates
(by date, weekday/hour heatmap, month, top senders), burst detection,
subject tokenization, bigrams, the word-cloud input, the NER sample, the
sentiment column and the insight summary — returns the "no data" state
(`none`) rather than failing, for every stopword set and every external
polarity assignment. -/
theorem c7_empty_table_features (stop : List String) (pol : Option String → ℚ) :
    volumeByDateFeature [] = none ∧ heatmapFeature [] = none ∧
    monthlyFeature [] = none ∧ topSendersFeature [] = none ∧
    burstFeature [] = none ∧ commonWordsFeature stop [] = none ∧
    bigramsFeature stop [] = none ∧ wordCloudFeature [] = none ∧
    nerFeature [] = none ∧ sentimentFeature pol [] = none ∧
    insightFeature pol [] = none :=
  ⟨rfl, rfl, rfl, rfl, rfl, rfl, rfl, rfl, rfl, rfl, rfl⟩

/-! ## C2: the keyword filter is a regex search, not a literal substring -/

/-- On a dot-free pattern, matching at the head is literal case-insensitive
prefix matching. -/
theorem reMatchHere_eq_ciStarts {k : List Char} (hk : '.' ∉ k) (s : List Char) :
    reMatchHere k s = ciStarts k s := by
  induction k generalizing s with
  | nil => cases s <;> rfl
  | cons p ps ih =>
      have hp : p ≠ '.' := fun h => hk (h ▸ List.mem_cons_self p ps)
      have hps : '.' ∉ ps := fun h => hk (List.mem_cons_of_mem _ h)
      cases s with
      | nil => rfl
      | cons c cs =>
          simp only [reMatchHere, ciStarts, if_neg hp, ih hps]

/-- On a dot-free (hence metacharacter-free) pattern, `re.search` is the
literal case-insensitive substring test. -/
theorem reSearch_eq_ciSubstring {k : List Char} (hk : '.' ∉ k) (s : List Char) :
    reSearch k s = ciSubstring k s := by
  induction s with
  | nil =>
      show (reMatchHere k [] || false) = (ciStarts k [] || false)
      rw [reMatchHere_eq_ciStarts hk]
  | cons c cs ih =>
      show (reMatchHere k (c :: cs) || reSearch k cs) =
        (ciStarts k (c :: cs) || ciSubstring k cs)
      rw [reMatchHere_eq_ciStarts hk, ih]

/-- C2 counterexample.  The keyword `"a.b"` is not a literal
case-insensitive substring of the subject `"axb"` (nor of the empty body),
yet the source's keyword filter keeps the row: pandas
`str.contains(keyword, case=False, na=False)` interprets the keyword as a
regular expression, and `.` matches the `x`. -/
theorem c2_counterexample :
    applyFilter ⟨0, 10, [], "a.b"⟩
        [⟨"s@x.com", some "axb", some "", 5, 9, "Monday", 202401⟩] =
      [⟨"s@x.com", some "axb", some "", 5, 9, "Monday", 202401⟩] ∧
    ciSubstringO "a.b" (some "axb") = false ∧
    ciSubstringO "a.b" (some "") = false := by
  decide

/-- C2 amended.  For every non-empty keyword containing no regex
metacharacter, the keyword filter keeps a row exactly when the keyword is a
case-insensitive literal substring of its Subject or of its Body (logical
OR), and a missing Subject or Body value never matches.  (For keywords
containing metacharacters the filter is a regex search instead.) -/
theorem c2_amended_keyword_filter (k : String) (e : Email) (hne : k ≠ "")
    (hmeta : ∀ c ∈ k.toList, isReMeta c = false) :
    kwMask k e = (ciSubstringO k e.subject || ciSubstringO k e.body) ∧
    (e.subject = none → e.body = none → kwMask k e = false) := by
  have hdot : '.' ∉ k.toList := fun h => by
    have := hmeta '.' h
    simp [isReMeta] at this
  have hsub : ∀ cell : Option String, strContainsO k cell = ciSubstringO k cell := by
    intro cell
    cases cell with
    | none => rfl
    | some s => exact reSearch_eq_ciSubstring hdot s.toList
  refine ⟨?_, ?_⟩
  · simp only [kwMask, bodyMask, hsub]
  · intro h1 h2
    simp [kwMask, bodyMask, strContainsO, h1, h2]

/-- Witness for C2 amended at the keyword `"invoice"` and a concrete row:
the mask agrees with the literal substring test (here both sides are
`true`, via the case-insensitive Subject match). -/
theorem c2_amended_keyword_filter_witness :
    (kwMask "invoice" ⟨"s@x.com", some "Re: INVOICE 7", some "", 5, 9, "Monday", 202401⟩ =
      (ciSubstringO "invoice" (some "Re: INVOICE 7") || ciSubstringO "invoice" (some ""))) ∧
    kwMask "invoice" ⟨"s@x.com", some "Re: INVOICE 7", some "", 5, 9, "Monday", 202401⟩ = true :=
  ⟨(c2_amended_keyword_filter "invoice" _ (by decide) (by decide)).1, by decide⟩

/-! ## C8: the anomaly rule -/

/-- C8.  On every non-empty filtered table the overall anomaly flag is
raised exactly when burst days exist, or the politeness ratio is strictly
below 0.2, or the mean polarity is strictly below -0.1 (for every external
polarity assignment); and when no row's body contains a polite phrase the
politeness ratio is 0 and the flag fires through the politeness
condition. -/
theorem c8_anomaly_rule (pol : Option String → ℚ) (t : List Email) (hne : t ≠ []) :
    (anomalyFlag pol t = true ↔
      burstDays t ≠ [] ∨ politeRatio t < 1 / 5 ∨ avgPolarity pol t < -(1 / 10)) ∧
    ((∀ e ∈ t, politeBody e = false) →
      politeRatio t = 0 ∧ anomalyFlag pol t = true) := by
  constructor
  · simp [anomalyFlag, List.isEmpty_iff, Bool.or_eq_true, decide_eq_true_iff,
      or_assoc]
  · intro h
    have hcnt : t.countP politeBody = 0 :=
      List.countP_eq_zero.mpr fun e he => by simp [h e he]
    have hr : politeRatio t = 0 := by
      unfold politeRatio
      rw [hcnt]
      simp
    refine ⟨hr, ?_⟩
    have hlt : politeRatio t < 1 / 5 := by rw [hr]; norm_num
    simp only [anomalyFlag, Bool.or_eq_true, decide_eq_true_iff]
    exact Or.inl (Or.inr hlt)

/-- Witness for C8 at a concrete one-row table (no polite phrase in the
body) and the zero polarity assignment: the ratio is 0 and the anomaly
fires. -/
theorem c8_anomaly_rule_witness :
    politeRatio [⟨"a@x.com", some "s", some "where is it", 739251, 9, "Friday", 202403⟩] = 0 ∧
    anomalyFlag (fun _ => 0)
      [⟨"a@x.com", some "s", some "where is it", 739251, 9, "Friday", 202403⟩] = true :=
  (c8_anomaly_rule (fun _ => 0) _ (by decide)).2 (by decide)

/-! ## C9: the weekday/hour heatmap -/

/-- Looking up a key in the graph of a function over a key list finds the
function's value at that key. -/
theorem lookup_map_pair {α β : Type} [BEq α] [LawfulBEq α]
    (l : List α) (f : α → β) (a : α) (ha : a ∈ l) :
    (l.map fun x => (x, f x)).lookup a = some (f a) := by
  induction l with
  | nil => cases ha
  | cons x xs ih =>
      by_cases h : a = x
      · subst h
        simp [List.lookup]
      · have hb : (a == x) = false := beq_false_of_ne h
        have ha' : a ∈ xs := by
          rcases List.mem_cons.mp ha with h' | h'
          · exact absurd h' h
          · exact h'
        simp [List.lookup, hb, ih ha']

/-- C9 counterexample.  In a one-row table whose email falls on a Monday at
hour 9, the column 9 exists, yet the reindexed heatmap's `"Tuesday"` row is
the missing (`NaN`) row rather than a row of zeros: `reindex` fills absent
weekday rows with `NaN`, not 0, contradicting the claim that every cell of
a weekday with no emails holds the count 0. -/
theorem c9_counterexample :
    (heatmap_data
        [⟨"a@x.com", some "s", some "b", 739254, 9, "Monday", 202403⟩]).lookup
        "Tuesday" = some none ∧
    9 ∈ hoursPresent [⟨"a@x.com", some "s", some "b", 739254, 9, "Monday", 202403⟩] := by
  decide

/-- C9 amended.  For every table, the heatmap matrix has exactly the rows
Monday through Sunday in that fixed order; the row of every weekday present
in the data assigns to every observed-hour column the count of emails at
that (weekday, hour) pair — 0 when that pair has no emails —; and a weekday
with no emails at all gets the missing (`NaN`) row that `reindex`
introduces, not a row of zeros.  (Columns exist only for hours observed
somewhere in the data.) -/
theorem c9_amended_heatmap (t : List Email) :
    ((heatmap_data t).map Prod.fst = weekdayOrder) ∧
    (∀ w h, w ∈ weekdayOrder → wdPresent t w = true → h ∈ hoursPresent t →
      (heatmap_data t).lookup w =
        some (some ((hoursPresent t).map fun h' => (h', cntWH t w h'))) ∧
      ((hoursPresent t).map fun h' => (h', cntWH t w h')).lookup h =
        some (cntWH t w h)) ∧
    (∀ w, w ∈ weekdayOrder → wdPresent t w = false →
      (heatmap_data t).lookup w = some none) ∧
    (∀ w h, (∀ e ∈ t, ¬ (e.weekday = w ∧ e.hour = h)) → cntWH t w h = 0) := by
  refine ⟨?_, ?_, ?_, ?_⟩
  · rfl
  · intro w h hw hp hh
    constructor
    · rw [show heatmap_data t = weekdayOrder.map fun w' =>
          (w', if wdPresent t w' then
            some ((hoursPresent t).map fun h' => (h', cntWH t w' h')) else none)
          from rfl]
      rw [lookup_map_pair weekdayOrder _ w hw, if_pos hp]
    · exact lookup_map_pair (hoursPresent t) _ h hh
  · intro w hw hp
    rw [show heatmap_data t = weekdayOrder.map fun w' =>
        (w', if wdPresent t w' then
          some ((hoursPresent t).map fun h' => (h', cntWH t w' h')) else none)
        from rfl]
    rw [lookup_map_pair weekdayOrder _ w hw, hp]
    simp
  · intro w h hno
    refine List.countP_eq_zero.mpr fun e he => ?_
    have := hno e he
    simp only [Bool.and_eq_true, beq_iff_eq]
    intro hc
    exact this ⟨hc.1, hc.2⟩

/-- Witness for C9 amended at a concrete one-row table: the Monday row
carries the count 1 at hour 9, and the absent Tuesday row is missing. -/
theorem c9_amended_heatmap_witness :
    ((heatmap_data [⟨"a@x.com", some "s", some "b", 739254, 9, "Monday", 202403⟩]).lookup
        "Monday" =
      some (some [(9, 1)])) ∧
    ((heatmap_data [⟨"a@x.com", some "s", some "b", 739254, 9, "Monday", 202403⟩]).lookup
        "Wednesday" = some none) := by
  have h2 := c9_amended_heatmap
    [⟨"a@x.com", some "s", some "b", 739254, 9, "Monday", 202403⟩]
  refine ⟨?_, h2.2.2.1 "Wednesday" (by decide) (by decide)⟩
  have h1 := (h2.2.1 "Monday" 9 (by decide) (by decide) (by decide)).1
  rw [h1]
  decide

/-! ## C3: burst detection -/

/-- Strict comparison against twice a square root, in square-free form. -/
theorem two_sqrt_lt_iff (a v : ℝ) (hv : 0 ≤ v) :
    2 * Real.sqrt v < a ↔ 0 < a ∧ 4 * v < a ^ 2 := by
  have h4 : Real.sqrt (4 * v) = 2 * Real.sqrt v := by
    rw [show (4 : ℝ) = 2 ^ 2 by norm_num, Real.sqrt_mul (by positivity),
      Real.sqrt_sq (by norm_num)]
  constructor
  · intro h
    have ha : 0 < a := lt_of_le_of_lt (by positivity) h
    exact ⟨ha, by have := (Real.sqrt_lt' ha).mp (h4 ▸ h); linarith⟩
  · rintro ⟨ha, h⟩
    have := (Real.sqrt_lt' ha).mpr (by linarith : 4 * v < a ^ 2)
    rwa [h4] at this

/-- The scaled sum of squared deviations is nonnegative. -/
theorem countsSqDev_nonneg (counts : List (Nat × Nat)) :
    0 ≤ countsSqDev counts := by
  refine List.sum_nonneg fun x hx => ?_
  rcases List.mem_map.mp hx with ⟨p, _, rfl⟩
  exact sq_nonneg _

/-- The integer form of the burst comparison used by `burstOfCounts` agrees
with the source's `mean + 2 * std < count` over the reals, for at least two
days. -/
theorem burst_threshold_iff (counts : List (Nat × Nat)) (c : Nat)
    (hn : 2 ≤ counts.length) :
    (0 < countDev counts c ∧
        4 * countsSqDev counts <
          countDev counts c ^ 2 * ((counts.length : Int) - 1)) ↔
      ((countsMean counts : ℚ) : ℝ) +
          2 * Real.sqrt ((countsSVar counts : ℚ) : ℝ) < (c : ℝ) := by
  have hn0 : 0 < (counts.length : ℝ) := by
    have : (2 : ℝ) ≤ (counts.length : ℝ) := by exact_mod_cast hn
    linarith
  have hn1 : 0 < (counts.length : ℝ) - 1 := by
    have : (2 : ℝ) ≤ (counts.length : ℝ) := by exact_mod_cast hn
    linarith
  have hn2 : (0 : ℝ) < (counts.length : ℝ) ^ 2 := by positivity
  have hS : (0 : ℝ) ≤ ((countsSqDev counts : Int) : ℝ) := by
    exact_mod_cast countsSqDev_nonneg counts
  have hmean : ((countsMean counts : ℚ) : ℝ) =
      ((countsTotal counts : Int) : ℝ) / (counts.length : ℝ) := by
    unfold countsMean
    push_cast
    ring
  have hsvar : ((countsSVar counts : ℚ) : ℝ) =
      ((countsSqDev counts : Int) : ℝ) /
        ((counts.length : ℝ) ^ 2 * ((counts.length : ℝ) - 1)) := by
    unfold countsSVar
    push_cast
    ring
  have hv : (0 : ℝ) ≤ ((countsSVar counts : ℚ) : ℝ) := by
    rw [hsvar]
    exact div_nonneg hS (mul_nonneg (by positivity) (le_of_lt hn1))
  have hkey : (((countDev counts c : Int) : ℝ) / (counts.length : ℝ)) =
      (c : ℝ) - ((countsTotal counts : Int) : ℝ) / (counts.length : ℝ) := by
    unfold countDev
    push_cast
    field_simp
    ring
  have hsplit : (((countsMean counts : ℚ) : ℝ) +
      2 * Real.sqrt ((countsSVar counts : ℚ) : ℝ) < (c : ℝ)) ↔
      2 * Real.sqrt ((countsSVar counts : ℚ) : ℝ) <
        ((countDev counts c : Int) : ℝ) / (counts.length : ℝ) := by
    rw [hmean, hkey]
    constructor <;> intro h <;> linarith
  have hcast : (4 * countsSqDev counts <
      countDev counts c ^ 2 * ((counts.length : Int) - 1)) ↔
      (4 * ((countsSqDev counts : Int) : ℝ) <
        ((countDev counts c : Int) : ℝ) ^ 2 * ((counts.length : ℝ) - 1)) := by
    rw [show ((counts.length : ℝ) : ℝ) - 1 =
      (((counts.length : Int) - 1 : Int) : ℝ) by push_cast; ring]
    rw [show ((countDev counts c : Int) : ℝ) ^ 2 =
      (((countDev counts c ^ 2 : Int)) : ℝ) by push_cast; ring]
    rw [show (4 * ((countsSqDev counts : Int) : ℝ) : ℝ) =
      (((4 * countsSqDev counts : Int)) : ℝ) by push_cast; ring]
    rw [← Int.cast_mul, Int.cast_lt]
  have h1 : (0 < ((countDev counts c : Int) : ℝ) / (counts.length : ℝ)) ↔
      0 < countDev counts c := by
    rw [lt_div_iff₀ hn0, zero_mul]
    exact_mod_cast Iff.rfl
  have h2 : (4 * (((countsSqDev counts : Int) : ℝ) /
        ((counts.length : ℝ) ^ 2 * ((counts.length : ℝ) - 1))) <
      (((countDev counts c : Int) : ℝ) / (counts.length : ℝ)) ^ 2) ↔
      4 * countsSqDev counts <
        countDev counts c ^ 2 * ((counts.length : Int) - 1) := by
    rw [div_pow, ← mul_div_assoc, div_lt_div_iff (by positivity) hn2, hcast]
    constructor
    · intro hA
      by_contra hB
      push_neg at hB
      have hBn := mul_le_mul_of_nonneg_right hB (le_of_lt hn2)
      ring_nf at hA hBn
      linarith
    · intro hB
      have hBn := mul_lt_mul_of_pos_right hB hn2
      ring_nf at hBn ⊢
      linarith
  rw [hsplit, two_sqrt_lt_iff _ _ hv, hsvar, h1, h2]

/-- C3.  Burst detection flags exactly the days of the filtered table whose
count strictly exceeds `mean + 2 * (sample standard deviation)` of the
per-day counts; and with fewer than two distinct days (where the pandas
sample standard deviation is `NaN` and every comparison with it is false)
the burst-day set is empty. -/
theorem c3_burst_days (t : List Email) (d : Nat) :
    (d ∈ burstDays t ↔
      2 ≤ (dailyCounts t).length ∧ d ∈ dailyDates t ∧
        ((countsMean (dailyCounts t) : ℚ) : ℝ) +
            2 * Real.sqrt ((countsSVar (dailyCounts t) : ℚ) : ℝ) <
          (dayCount t d : ℝ)) ∧
    ((dailyCounts t).length < 2 → burstDays t = []) := by
  constructor
  · unfold burstDays burstOfCounts
    by_cases hn : (dailyCounts t).length < 2
    · rw [if_pos hn]
      simp only [List.not_mem_nil, false_iff, not_and]
      intro h2
      omega
    · push_neg at hn
      rw [if_neg (by omega)]
      rw [List.mem_filterMap]
      constructor
      · rintro ⟨p, hp, hpd⟩
        by_cases hc : 0 < countDev (dailyCounts t) p.2 ∧
            4 * countsSqDev (dailyCounts t) <
              countDev (dailyCounts t) p.2 ^ 2 * (((dailyCounts t).length : Int) - 1)
        · rw [if_pos hc] at hpd
          have hp1 : p.1 = d := Option.some.inj hpd
          rcases List.mem_map.mp hp with ⟨d', hd', hdp⟩
          have hd1 : d' = d := by rw [← hp1, ← hdp]
          have hp2 : p.2 = dayCount t d := by rw [← hdp]; simp [hd1]
          rw [hd1] at hd'
          refine ⟨hn, hd', ?_⟩
          rw [hp2] at hc
          exact (burst_threshold_iff (dailyCounts t) (dayCount t d) hn).mp hc
        · rw [if_neg hc] at hpd
          cases hpd
      · rintro ⟨-, hd, hreal⟩
        refine ⟨(d, dayCount t d), List.mem_map_of_mem _ hd, ?_⟩
        rw [if_pos ((burst_threshold_iff (dailyCounts t) (dayCount t d) hn).mpr hreal)]
  · intro h
    unfold burstDays burstOfCounts
    rw [if_pos h]

/-- Witness for C3 at a concrete one-row table: one distinct day, so the
standard deviation is undefined and no burst is reported. -/
theorem c3_burst_days_witness :
    (dailyCounts [⟨"a@x.com", some "s", some "b", 739251, 9, "Friday", 202403⟩]).length < 2 ∧
    burstDays [⟨"a@x.com", some "s", some "b", 739251, 9, "Friday", 202403⟩] = [] :=
  ⟨by decide,
    (c3_burst_days [⟨"a@x.com", some "s", some "b", 739251, 9, "Friday", 202403⟩] 0).2
      (by decide)⟩

/-! ## C10: filtering sees the cleaned body -/

/-- C10.  Body cleanup runs before filtering, so the keyword filter tests
the *cleaned* body: for every metacharacter-free keyword that does not
survive into the cleaned body (in particular one occurring in the original
body only inside a removed closing phrase or the text after it), the
filter's Body test rejects the row. -/
theorem c10_filter_sees_cleaned_body (kws : List (List Char))
    (k rawBody : String) (e : Email)
    (hmeta : ∀ c ∈ k.toList, isReMeta c = false)
    (hgone : ciSubstring k.toList (clean_body kws rawBody.toList) = false)
    (hbody : e.body = some (cleanBodyS kws rawBody)) :
    bodyMask k e = false := by
  have hdot : '.' ∉ k.toList := fun h => by
    have := hmeta '.' h
    simp [isReMeta] at this
  rw [bodyMask, hbody]
  show reSearch k.toList (cleanBodyS kws rawBody).toList = false
  have hrt : (cleanBodyS kws rawBody).toList = clean_body kws rawBody.toList := rfl
  rw [hrt, reSearch_eq_ciSubstring hdot]
  exact hgone

/-- Witness for C10: the keyword `"bob"` occurs in the raw body only inside
the removed `"Kind regards, Bob"` closing, so the Body test of the filter
rejects the normalized row. -/
theorem c10_filter_sees_cleaned_body_witness :
    bodyMask "bob"
      ⟨"b@x.com", some "s",
        some (cleanBodyS bodyCleanupKeywords "Hello there. Kind regards, Bob"),
        739251, 9, "Friday", 202403⟩ = false :=
  c10_filter_sees_cleaned_body bodyCleanupKeywords "bob"
    "Hello there. Kind regards, Bob" _ (by decide) (by decide) rfl

/-! ## C5: idempotence of body cleaning

The proof factors `reSubKw` through the newline structure of the text:
when no keyword contains a newline, no match crosses a line boundary, so
the substitution acts linewise as `truncLine`, whose output lines carry no
match; the rejoined text is then a fixed point of the substitution, and
stripping preserves that. -/

/-- `Char.ofNat` of a valid (sub-surrogate) code point round-trips. -/
theorem toNat_ofNat_valid {n : Nat} (h : n < 0xd800) :
    (Char.ofNat n).toNat = n := by
  unfold Char.ofNat
  rw [dif_pos (Or.inl h)]
  rfl

/-- Only the newline lowercases to a newline. -/
theorem toLower_eq_newline {c : Char} (h : c.toLower = '\n') : c = '\n' := by
  have h' : (if c.toNat ≥ 65 ∧ c.toNat ≤ 90 then Char.ofNat (c.toNat + 32)
      else c) = '\n' := h
  split at h'
  · rename_i hr
    have h122 : c.toNat + 32 < 0xd800 := by omega
    have h1 : (Char.ofNat (c.toNat + 32)).toNat = c.toNat + 32 :=
      toNat_ofNat_valid h122
    rw [h'] at h1
    have h10 : ('\n' : Char).toNat = 10 := rfl
    omega
  · exact h'

/-- A character case-insensitively equal to a newline is a newline. -/
theorem ciEq_newline {a : Char} (h : ciEq a '\n' = true) : a = '\n' := by
  have hl : a.toLower = ('\n' : Char).toLower := by
    have := (beq_iff_eq (a := a.toLower) (b := ('\n' : Char).toLower)).mp h
    exact this
  exact toLower_eq_newline (by rw [hl]; rfl)

/-- A newline-free keyword cannot match at a newline (unless empty). -/
theorem ciStarts_newline_head {k : List Char} (hk : '\n' ∉ k) {s : List Char}
    (h : ciStarts k ('\n' :: s) = true) : k = [] := by
  cases k with
  | nil => rfl
  | cons a as =>
      simp only [ciStarts, Bool.and_eq_true] at h
      exact absurd (ciEq_newline h.1 ▸ List.mem_cons_self a as) hk

/-- A newline-free keyword matches a text exactly when it matches the
text's first line. -/
theorem ciStarts_takeWhile {k : List Char} (hk : '\n' ∉ k) (s : List Char) :
    ciStarts k s = ciStarts k (s.takeWhile fun c => c != '\n') := by
  induction k generalizing s with
  | nil => rfl
  | cons a as ih =>
      have ha : a ≠ '\n' := fun h => hk (h ▸ List.mem_cons_self a as)
      have has : '\n' ∉ as := fun h => hk (List.mem_cons_of_mem _ h)
      cases s with
      | nil => rfl
      | cons c cs =>
          by_cases hc : c = '\n'
          · subst hc
            rw [List.takeWhile_cons]
            simp only [bne_self_eq_false, Bool.false_eq_true, if_false]
            have hae : ciEq a '\n' = false := by
              cases hq : ciEq a '\n'
              · rfl
              · exact absurd (ciEq_newline hq) ha
            simp [ciStarts, hae]
          · rw [List.takeWhile_cons]
            have : (c != '\n') = true := by simp [bne, hc]
            rw [if_pos this]
            simp only [ciStarts, ih has cs]

/-- Matching transfers along prefixes of the text. -/
theorem ciStarts_extend {k u v : List Char} (h : ciStarts k u = true)
    (huv : u <+: v) : ciStarts k v = true := by
  induction k generalizing u v with
  | nil => rfl
  | cons a as ih =>
      cases u with
      | nil => simp [ciStarts] at h
      | cons b bs =>
          cases v with
          | nil => exact absurd (List.eq_nil_of_prefix_nil huv) (by simp)
          | cons c cs =>
              rcases List.cons_prefix_cons.mp huv with ⟨rfl, hbs⟩
              simp only [ciStarts, Bool.and_eq_true] at h ⊢
              exact ⟨h.1, ih h.2 hbs⟩

/-- A newline-free keyword matching inside the line part of
`u ++ '\n' :: w` matches `u` itself. -/
theorem ciStarts_append_newline {k : List Char} (hk : '\n' ∉ k) :
    ∀ {u w : List Char}, ciStarts k (u ++ '\n' :: w) = true →
      ciStarts k u = true := by
  induction k with
  | nil => intro u w _; rfl
  | cons a as ih =>
      intro u w h
      have ha : a ≠ '\n' := fun hna => hk (hna ▸ List.mem_cons_self a as)
      have has : '\n' ∉ as := fun hna => hk (List.mem_cons_of_mem _ hna)
      cases u with
      | nil =>
          simp only [List.nil_append, ciStarts, Bool.and_eq_true] at h
          exact absurd (ciEq_newline h.1) ha
      | cons b bs =>
          simp only [List.cons_append, ciStarts, Bool.and_eq_true] at h ⊢
          exact ⟨h.1, ih has h.2⟩

/-- `splitNl` never returns the empty list of lines. -/
theorem splitNl_ne_nil (s : List Char) : splitNl s ≠ [] := by
  cases s with
  | nil => simp [splitNl]
  | cons c rest =>
      unfold splitNl
      by_cases hc : c = '\n'
      · simp [hc]
      · rw [if_neg hc]
        cases splitNl rest <;> simp

/-- Rejoining the split lines recovers the text. -/
theorem joinNl_splitNl (s : List Char) : joinNl (splitNl s) = s := by
  induction s with
  | nil => rfl
  | cons c rest ih =>
      unfold splitNl
      by_cases hc : c = '\n'
      · subst hc
        rw [if_pos rfl]
        rcases hs : splitNl rest with _ | ⟨l, ls⟩
        · exact absurd hs (splitNl_ne_nil rest)
        · show [] ++ '\n' :: joinNl (l :: ls) = '\n' :: rest
          rw [← hs, ih]
          rfl
      · rw [if_neg hc]
        rcases hs : splitNl rest with _ | ⟨l, ls⟩
        · exact absurd hs (splitNl_ne_nil rest)
        · rw [hs] at ih
          cases ls with
          | nil =>
              show c :: l = c :: rest
              have : joinNl [l] = l := rfl
              rw [this] at ih
              rw [ih]
          | cons l2 ls2 =>
              show (c :: l) ++ '\n' :: joinNl (l2 :: ls2) = c :: rest
              have : joinNl (l :: l2 :: ls2) = l ++ '\n' :: joinNl (l2 :: ls2) := rfl
              rw [this] at ih
              simp only [List.cons_append, ih]

/-- Every line produced by `splitNl` is newline-free. -/
theorem mem_splitNl_no_newline {s l : List Char} (h : l ∈ splitNl s) :
    '\n' ∉ l := by
  induction s generalizing l with
  | nil =>
      simp only [splitNl, List.mem_singleton] at h
      simp [h]
  | cons c rest ih =>
      unfold splitNl at h
      by_cases hc : c = '\n'
      · rw [if_pos hc] at h
        rcases List.mem_cons.mp h with rfl | h
        · simp
        · exact ih h
      · rw [if_neg hc] at h
        rcases hs : splitNl rest with _ | ⟨l1, ls⟩
        · exact absurd hs (splitNl_ne_nil rest)
        · rw [hs] at h
          rcases List.mem_cons.mp h with rfl | h
          · intro hmem
            rcases List.mem_cons.mp hmem with h' | h'
            · exact hc h'.symm
            · exact ih (hs ▸ List.mem_cons_self l1 ls) h'
          · exact ih (hs ▸ List.mem_cons_of_mem l1 h)

/-- When the text has no newline, it is its own single line. -/
theorem splitNl_no_newline {s : List Char}
    (h : s.dropWhile (fun c => c != '\n') = []) : splitNl s = [s] := by
  induction s with
  | nil => rfl
  | cons c rest ih =>
      rw [List.dropWhile_cons] at h
      by_cases hc : c = '\n'
      · rw [if_neg (by simp [hc])] at h
        cases h
      · rw [if_pos (by simp [hc])] at h
        unfold splitNl
        rw [if_neg hc, ih h]

/-- The first character dropped by the newline-free run is a newline. -/
theorem dropWhile_newline_head :
    ∀ {s : List Char} {c : Char} {t : List Char},
      s.dropWhile (fun c => c != '\n') = c :: t → c = '\n' := by
  intro s
  induction s with
  | nil => intro c t h; cases h
  | cons a rest ih =>
      intro c t h
      rw [List.dropWhile_cons] at h
      by_cases ha : a = '\n'
      · rw [if_neg (by simp [ha])] at h
        injection h with h1 h2
        rw [← h1]
        exact ha
      · rw [if_pos (by simp [ha])] at h
        exact ih h

/-- Splitting at the first newline: the first line is the newline-free
prefix and the remaining lines split the text after the newline. -/
theorem splitNl_first_newline {s t : List Char}
    (h : s.dropWhile (fun c => c != '\n') = '\n' :: t) :
    splitNl s = (s.takeWhile fun c => c != '\n') :: splitNl t := by
  induction s with
  | nil => cases h
  | cons c rest ih =>
      rw [List.dropWhile_cons] at h
      by_cases hc : c = '\n'
      · subst hc
        rw [if_neg (by simp)] at h
        injection h with h1 h2
        subst h2
        show [] :: splitNl rest =
          List.takeWhile (fun c => c != '\n') ('\n' :: rest) :: splitNl rest
        rw [List.takeWhile_cons]
        simp
      · rw [if_pos (by simp [hc])] at h
        have hsp := ih h
        show (if c = '\n' then [] :: splitNl rest
          else
            match splitNl rest with
            | [] => [[c]]
            | l :: ls => (c :: l) :: ls) =
          List.takeWhile (fun c => c != '\n') (c :: rest) :: splitNl t
        rw [if_neg hc, hsp, List.takeWhile_cons, if_pos (by simp [hc])]

/-- The head line of the split is the newline-free prefix of the text. -/
theorem splitNl_head (s : List Char) :
    ∃ ls, splitNl s = (s.takeWhile fun c => c != '\n') :: ls := by
  rcases hd : s.dropWhile (fun c => c != '\n') with _ | ⟨c, t⟩
  · refine ⟨[], ?_⟩
    rw [splitNl_no_newline hd]
    have := List.takeWhile_append_dropWhile (fun c => c != '\n') s
    rw [hd, List.append_nil] at this
    rw [this]
  · have hc : c = '\n' := dropWhile_newline_head hd
    subst hc
    exact ⟨splitNl t, splitNl_first_newline hd⟩

/-- A produced match length comes from some matching keyword. -/
theorem altMatchLen_some {kws : List (List Char)} {s : List Char} {L : Nat}
    (h : altMatchLen kws s = some L) :
    ∃ k ∈ kws, ciStarts k s = true ∧ L = k.length + lineLen (s.drop k.length) := by
  induction kws with
  | nil => cases h
  | cons k rest ih =>
      unfold altMatchLen at h
      by_cases hk : ciStarts k s = true
      · rw [if_pos hk] at h
        exact ⟨k, List.mem_cons_self k rest, hk, (Option.some.inj h).symm⟩
      · rw [if_neg hk] at h
        rcases ih h with ⟨k', hk', hs', hL⟩
        exact ⟨k', List.mem_cons_of_mem _ hk', hs', hL⟩

/-- A matching keyword forces the alternation to match. -/
theorem altMatchLen_isSome {kws : List (List Char)} {s k : List Char}
    (hk : k ∈ kws) (hs : ciStarts k s = true) :
    ∃ L, altMatchLen kws s = some L := by
  induction kws with
  | nil => cases hk
  | cons k0 rest ih =>
      unfold altMatchLen
      by_cases h0 : ciStarts k0 s = true
      · rw [if_pos h0]
        exact ⟨_, rfl⟩
      · rw [if_neg h0]
        rcases List.mem_cons.mp hk with rfl | hk'
        · exact absurd hs h0
        · exact ih hk'

/-- At a non-newline head, every produced match length is positive. -/
theorem altMatchLen_pos {kws : List (List Char)} {c : Char} {rest : List Char}
    {L : Nat} (hc : c ≠ '\n') (h : altMatchLen kws (c :: rest) = some L) :
    0 < L := by
  rcases altMatchLen_some h with ⟨k, -, hs, rfl⟩
  cases k with
  | cons a as => simp
  | nil =>
      simp only [List.length_nil, List.drop_zero, Nat.zero_add]
      unfold lineLen
      rw [List.takeWhile_cons, if_pos (by simp [hc])]
      simp

/-- For a newline-free matching keyword the match runs to the end of the
first line: keyword length plus remaining line length equals the line
length at the match position. -/
theorem ciStarts_lineLen {k : List Char} (hk : '\n' ∉ k) :
    ∀ {s : List Char}, ciStarts k s = true →
      k.length + lineLen (s.drop k.length) = lineLen s := by
  induction k with
  | nil => intro s _; simp
  | cons a as ih =>
      intro s hs
      have ha : a ≠ '\n' := fun h => hk (h ▸ List.mem_cons_self a as)
      have has : '\n' ∉ as := fun h => hk (List.mem_cons_of_mem _ h)
      cases s with
      | nil => simp [ciStarts] at hs
      | cons c cs =>
          simp only [ciStarts, Bool.and_eq_true] at hs
          have hc : c ≠ '\n' := fun hcn => ha (ciEq_newline (hcn ▸ hs.1))
          have hstep : lineLen (c :: cs) = 1 + lineLen cs := by
            unfold lineLen
            rw [List.takeWhile_cons, if_pos (by simp [hc])]
            simp [Nat.add_comm]
          simp only [List.length_cons, List.drop_succ_cons]
          rw [hstep, ← ih has hs.2]
          omega

/-- Under newline-free keywords, a match at a non-newline head spans
exactly the rest of the line. -/
theorem altMatchLen_eq_lineLen {kws : List (List Char)}
    (H : ∀ k ∈ kws, '\n' ∉ k) {c : Char} {rest : List Char} {L : Nat}
    (hc : c ≠ '\n') (h : altMatchLen kws (c :: rest) = some L) :
    L = lineLen (c :: rest) := by
  rcases altMatchLen_some h with ⟨k, hkmem, hs, rfl⟩
  exact ciStarts_lineLen (H k hkmem) hs

/-- Under newline-free keywords, the alternation cannot delete at a
newline. -/
theorem altMatchLen_newline {kws : List (List Char)}
    (H : ∀ k ∈ kws, '\n' ∉ k) (rest : List Char) :
    altMatchLen kws ('\n' :: rest) = none ∨
      altMatchLen kws ('\n' :: rest) = some 0 := by
  induction kws with
  | nil => exact Or.inl rfl
  | cons k rest' ih =>
      unfold altMatchLen
      by_cases hk : ciStarts k ('\n' :: rest) = true
      · have hke : k = [] :=
          ciStarts_newline_head (H k (List.mem_cons_self k rest')) hk
        subst hke
        rw [if_pos hk]
        right
        have : lineLen ('\n' :: rest) = 0 := by
          unfold lineLen
          rw [List.takeWhile_cons]
          simp
        simp [this]
      · rw [if_neg hk]
        exact ih fun k' hk' => H k' (List.mem_cons_of_mem _ hk')

/-- Resolving the skip counter: skipping `n` characters is deletion of the
first `n` characters. -/
theorem reSubGo_skip (kws : List (List Char)) :
    ∀ (s : List Char) (n : Nat), reSubGo kws s n = reSubKw kws (s.drop n) := by
  intro s
  induction s with
  | nil => intro n; cases n <;> rfl
  | cons c rest ih =>
      intro n
      cases n with
      | zero => rfl
      | succ m =>
          show reSubGo kws rest m = reSubKw kws ((c :: rest).drop (m + 1))
          rw [List.drop_succ_cons]
          exact ih m

/-- The deleting-step equation of the substitution. -/
theorem reSubKw_cons_del {kws : List (List Char)} {c : Char}
    {rest : List Char} {n : Nat}
    (h : altMatchLen kws (c :: rest) = some (n + 1)) :
    reSubKw kws (c :: rest) = reSubKw kws (rest.drop n) := by
  show reSubGo kws (c :: rest) 0 = reSubKw kws (rest.drop n)
  unfold reSubGo
  rw [h]
  exact reSubGo_skip kws rest n

/-- The keeping-step equation of the substitution. -/
theorem reSubKw_cons_keep {kws : List (List Char)} {c : Char}
    {rest : List Char}
    (h : altMatchLen kws (c :: rest) = none ∨
      altMatchLen kws (c :: rest) = some 0) :
    reSubKw kws (c :: rest) = c :: reSubKw kws rest := by
  show reSubGo kws (c :: rest) 0 = c :: reSubKw kws rest
  unfold reSubGo
  rcases h with h | h <;> rw [h] <;> rfl

/-- Under newline-free keywords a newline is always kept. -/
theorem reSubKw_cons_newline {kws : List (List Char)}
    (H : ∀ k ∈ kws, '\n' ∉ k) (rest : List Char) :
    reSubKw kws ('\n' :: rest) = '\n' :: reSubKw kws rest :=
  reSubKw_cons_keep (altMatchLen_newline H rest)

/-- Dropping the first line's length is dropping the newline-free run. -/
theorem drop_takeWhile_length (p : Char → Bool) (l : List Char) :
    l.drop ((l.takeWhile p).length) = l.dropWhile p := by
  induction l with
  | nil => rfl
  | cons c cs ih =>
      rw [List.takeWhile_cons, List.dropWhile_cons]
      by_cases hp : p c = true
      · rw [if_pos hp, if_pos hp, List.length_cons, List.drop_succ_cons, ih]
      · rw [if_neg hp, if_neg hp]
        rfl

/-- `joinNl` distributes over a nonempty tail. -/
theorem joinNl_cons_ne {l : List Char} {ls : List (List Char)} (h : ls ≠ []) :
    joinNl (l :: ls) = l ++ '\n' :: joinNl ls := by
  cases ls with
  | nil => exact absurd rfl h
  | cons a b => rfl

/-- A head character moves out of `joinNl`. -/
theorem joinNl_cons_head (c : Char) (x : List Char) (r : List (List Char)) :
    joinNl ((c :: x) :: r) = c :: joinNl (x :: r) := by
  cases r <;> rfl

/-- A witnessing keyword makes `hasKwStart` true. -/
theorem hasKwStart_of_mem {kws : List (List Char)} {k l : List Char}
    (hk : k ∈ kws) (hs : ciStarts k l = true) : hasKwStart kws l = true :=
  List.any_eq_true.mpr ⟨k, hk, hs⟩

/-- A line at which some keyword matches truncates to nothing. -/
theorem truncLine_of_match {kws : List (List Char)} {l : List Char}
    (h : hasKwStart kws l = true) : truncLine kws l = [] := by
  cases l with
  | nil => rfl
  | cons c cs => simp [truncLine, h]

/-- A line at which no keyword matches keeps its head. -/
theorem truncLine_of_no_match {kws : List (List Char)} {c : Char}
    {cs : List Char} (h : hasKwStart kws (c :: cs) = false) :
    truncLine kws (c :: cs) = c :: truncLine kws cs := by
  simp [truncLine, h]

/-- The factorization: under newline-free keywords the substitution acts
linewise, truncating each line at its first keyword match. -/
theorem reSubKw_factor {kws : List (List Char)} (H : ∀ k ∈ kws, '\n' ∉ k) :
    ∀ (N : Nat) (s : List Char), s.length ≤ N →
      reSubKw kws s = joinNl ((splitNl s).map (truncLine kws)) := by
  intro N
  induction N with
  | zero =>
      intro s hs
      have hnil : s = [] := List.eq_nil_of_length_eq_zero (Nat.le_zero.mp hs)
      subst hnil
      rfl
  | succ N ih =>
      intro s hs
      cases s with
      | nil => rfl
      | cons c rest =>
          have hrest : rest.length ≤ N := by
            simp only [List.length_cons] at hs
            omega
          by_cases hc : c = '\n'
          · subst hc
            rw [reSubKw_cons_newline H]
            have hsp : splitNl ('\n' :: rest) = [] :: splitNl rest := by
              show (if '\n' = '\n' then [] :: splitNl rest else _) = _
              rw [if_pos rfl]
            rw [hsp, List.map_cons]
            have hmapne : (splitNl rest).map (truncLine kws) ≠ [] := by
              intro hcon
              exact splitNl_ne_nil rest (List.map_eq_nil_iff.mp hcon)
            rw [joinNl_cons_ne hmapne]
            show '\n' :: reSubKw kws rest = truncLine kws [] ++ '\n' :: _
            rw [show truncLine kws [] = [] from rfl, List.nil_append,
              ih rest hrest]
          · rcases hm : altMatchLen kws (c :: rest) with _ | L
            · -- no match at this head: the character is kept
              rw [reSubKw_cons_keep (Or.inl hm)]
              obtain ⟨l₁, ls, hsp⟩ : ∃ l₁ ls, splitNl rest = l₁ :: ls := by
                rcases h' : splitNl rest with _ | ⟨a, b⟩
                · exact absurd h' (splitNl_ne_nil rest)
                · exact ⟨a, b, rfl⟩
              have hsp2 : splitNl (c :: rest) = (c :: l₁) :: ls := by
                show (if c = '\n' then [] :: splitNl rest
                  else
                    match splitNl rest with
                    | [] => [[c]]
                    | l :: ls => (c :: l) :: ls) = (c :: l₁) :: ls
                rw [if_neg hc, hsp]
              have hl₁ : l₁ = rest.takeWhile fun x => x != '\n' := by
                rcases splitNl_head rest with ⟨ls', h'⟩
                rw [hsp] at h'
                exact (List.cons.inj h').1
              have hline : c :: l₁ = (c :: rest).takeWhile fun x => x != '\n' := by
                rw [List.takeWhile_cons, if_pos (by simp [hc]), hl₁]
              have hnk : hasKwStart kws (c :: l₁) = false := by
                by_contra hpos
                rw [Bool.not_eq_false] at hpos
                rcases List.any_eq_true.mp hpos with ⟨k, hkmem, hks⟩
                have : ciStarts k (c :: rest) = true := by
                  rw [ciStarts_takeWhile (H k hkmem), ← hline]
                  exact hks
                rcases altMatchLen_isSome hkmem this with ⟨L, hL⟩
                rw [hm] at hL
                cases hL
              rw [hsp2, List.map_cons, truncLine_of_no_match hnk,
                joinNl_cons_head, ← List.map_cons, ← hsp, ← ih rest hrest]
            · -- a match: the whole remaining line is deleted
              have hL : L = lineLen (c :: rest) := altMatchLen_eq_lineLen H hc hm
              have hLpos : 0 < L := altMatchLen_pos hc hm
              obtain ⟨n, rfl⟩ : ∃ n, L = n + 1 := ⟨L - 1, by omega⟩
              rw [reSubKw_cons_del hm]
              have hdrop : rest.drop n = (c :: rest).dropWhile fun x => x != '\n' := by
                have h1 : rest.drop n = (c :: rest).drop (n + 1) :=
                  (List.drop_succ_cons ..).symm
                rw [h1, show n + 1 = lineLen (c :: rest) from hL]
                exact drop_takeWhile_length _ _
              obtain ⟨k, hkmem, hks, -⟩ := altMatchLen_some hm
              have hkwline :
                  hasKwStart kws ((c :: rest).takeWhile fun x => x != '\n') = true := by
                refine hasKwStart_of_mem hkmem ?_
                rw [← ciStarts_takeWhile (H k hkmem)]
                exact hks
              rw [hdrop]
              rcases hd : (c :: rest).dropWhile (fun x => x != '\n') with _ | ⟨c2, t⟩
              · rw [splitNl_no_newline hd, List.map_cons, List.map_nil]
                have htw : ((c :: rest).takeWhile fun x => x != '\n') = c :: rest := by
                  have := List.takeWhile_append_dropWhile (fun x => x != '\n') (c :: rest)
                  rw [hd, List.append_nil] at this
                  exact this
                rw [show truncLine kws (c :: rest) = [] from
                  truncLine_of_match (htw ▸ hkwline)]
                rfl
              · have hc2 : c2 = '\n' := dropWhile_newline_head hd
                subst hc2
                have ht : t.length ≤ N := by
                  have h1 : ('\n' :: t).length ≤ (c :: rest).length := by
                    rw [← hd]
                    exact (List.dropWhile_suffix _).length_le
                  simp only [List.length_cons] at h1 hs
                  omega
                rw [splitNl_first_newline hd, List.map_cons,
                  truncLine_of_match hkwline]
                have hmapne : (splitNl t).map (truncLine kws) ≠ [] := by
                  intro hcon
                  exact splitNl_ne_nil t (List.map_eq_nil_iff.mp hcon)
                rw [joinNl_cons_ne hmapne, List.nil_append,
                  reSubKw_cons_newline H, ih t ht]

/-- Truncated lines are prefixes of their line. -/
theorem truncLine_leading (kws : List (List Char)) :
    ∀ l : List Char, truncLine kws l <+: l := by
  intro l
  induction l with
  | nil => exact List.prefix_refl []
  | cons c cs ih =>
      unfold truncLine
      by_cases h : hasKwStart kws (c :: cs) = true
      · rw [if_pos h]
        exact List.nil_prefix
      · rw [if_neg h]
        exact List.cons_prefix_cons.mpr ⟨rfl, ih⟩

/-- The output of `truncLine` on a newline-free line is clean: no keyword
matches at any of its nonempty suffixes. -/
theorem truncLine_clean {kws : List (List Char)} {l : List Char}
    (hnl : '\n' ∉ l) : lineClean kws (truncLine kws l) := by
  constructor
  · intro hmem
    exact hnl ((truncLine_leading kws l).subset hmem)
  · induction l with
    | nil =>
        intro t ht hne
        rw [List.suffix_nil.mp ht] at hne
        exact absurd rfl hne
    | cons c cs ih =>
        intro t ht hne
        unfold truncLine at ht
        by_cases h : hasKwStart kws (c :: cs) = true
        · rw [if_pos h] at ht
          rw [List.suffix_nil.mp ht] at hne
          exact absurd rfl hne
        · rw [if_neg h] at ht
          have hcs : '\n' ∉ cs := fun hx => hnl (List.mem_cons_of_mem _ hx)
          rcases List.suffix_cons_iff.mp ht with rfl | ht'
          · rw [Bool.eq_false_iff]
            intro hpos
            rcases List.any_eq_true.mp hpos with ⟨k, hkmem, hks⟩
            have htr : c :: truncLine kws cs <+: c :: cs :=
              List.cons_prefix_cons.mpr ⟨rfl, truncLine_leading kws cs⟩
            exact h (hasKwStart_of_mem hkmem (ciStarts_extend hks htr))
          · exact ih hcs t ht' hne

/-- Suffix decomposition across an append. -/
theorem suffix_append_cases {t a b : List Char} (h : t <:+ a ++ b) :
    t <:+ b ∨ ∃ u, u <:+ a ∧ u ≠ [] ∧ t = u ++ b := by
  induction a with
  | nil => exact Or.inl (by simpa using h)
  | cons x a' ih =>
      rw [List.cons_append] at h
      rcases List.suffix_cons_iff.mp h with rfl | h'
      · exact Or.inr ⟨x :: a', List.suffix_refl _, by simp, rfl⟩
      · rcases ih h' with h'' | ⟨u, hu, hne, rfl⟩
        · exact Or.inl h''
        · exact Or.inr ⟨u, hu.trans (List.suffix_cons x a'), hne, rfl⟩

/-- If a keyword matches a clean-line fragment glued to a newline, it
already matches the fragment. -/
theorem ciStarts_glue {k u w : List Char} (hk : '\n' ∉ k)
    (h : ciStarts k (u ++ '\n' :: w) = true) : ciStarts k u = true :=
  ciStarts_append_newline hk h

/-- `liveAt` is false exactly when the alternation yields no deleting
match. -/
theorem liveAt_eq_false {kws : List (List Char)} {t : List Char}
    (h : altMatchLen kws t = none ∨ altMatchLen kws t = some 0) :
    liveAt kws t = false := by
  unfold liveAt
  rcases h with h | h <;> rw [h]

/-- A live position yields a matching keyword. -/
theorem liveAt_true_elim {kws : List (List Char)} {t : List Char}
    (h : liveAt kws t = true) :
    ∃ L, altMatchLen kws t = some L ∧ 0 < L := by
  unfold liveAt at h
  rcases hm : altMatchLen kws t with _ | L
  · rw [hm] at h
    cases h
  · rcases L with _ | n
    · rw [hm] at h
      cases h
    · exact ⟨n + 1, rfl, Nat.succ_pos n⟩

/-- The empty text is never live. -/
theorem liveAt_nil (kws : List (List Char)) : liveAt kws [] = false := by
  refine liveAt_eq_false ?_
  induction kws with
  | nil => exact Or.inl rfl
  | cons k rest ih =>
      unfold altMatchLen
      by_cases hk : ciStarts k [] = true
      · have hke : k = [] := by
          cases k with
          | nil => rfl
          | cons a as => simp [ciStarts] at hk
        subst hke
        rw [if_pos hk]
        exact Or.inr rfl
      · rw [if_neg hk]
        exact ih

/-- A newline-headed text is never live under newline-free keywords. -/
theorem liveAt_newline {kws : List (List Char)} (H : ∀ k ∈ kws, '\n' ∉ k)
    (rest : List Char) : liveAt kws ('\n' :: rest) = false :=
  liveAt_eq_false (altMatchLen_newline H rest)

/-- Rejoined clean lines have no live position. -/
theorem noLive_joinNl {kws : List (List Char)} (H : ∀ k ∈ kws, '\n' ∉ k) :
    ∀ lines : List (List Char), (∀ l ∈ lines, lineClean kws l) →
      noLive kws (joinNl lines) := by
  intro lines
  induction lines with
  | nil =>
      intro _ t ht
      rw [List.suffix_nil.mp ht]
      exact liveAt_nil kws
  | cons l ls ih =>
      intro hclean t ht
      have hl : lineClean kws l := hclean l (List.mem_cons_self l ls)
      cases ls with
      | nil =>
          -- joinNl [l] = l
          have ht' : t <:+ l := ht
          rcases List.eq_nil_or_concat t with rfl | -
          · exact liveAt_nil kws
          · by_cases hte : t = []
            · subst hte
              exact liveAt_nil kws
            · refine liveAt_eq_false ?_
              rcases hm : altMatchLen kws t with _ | L
              · exact Or.inl rfl
              · rcases altMatchLen_some hm with ⟨k, hkmem, hks, rfl⟩
                exact absurd (hasKwStart_of_mem hkmem hks)
                  (Bool.eq_false_iff.mp (hl.2 t ht' hte))
      | cons l2 ls2 =>
          rw [joinNl_cons_ne (by simp)] at ht
          rcases suffix_append_cases ht with h' | ⟨u, hu, hune, rfl⟩
          · rcases List.suffix_cons_iff.mp h' with rfl | h''
            · exact liveAt_newline H _
            · exact ih (fun x hx => hclean x (List.mem_cons_of_mem _ hx)) _ h''
          · -- t = u ++ '\n' :: joinNl (l2 :: ls2) with u a nonempty suffix of l
            by_cases hlive : liveAt kws (u ++ '\n' :: joinNl (l2 :: ls2)) = true
            · rcases liveAt_true_elim hlive with ⟨L, hm, -⟩
              rcases altMatchLen_some hm with ⟨k, hkmem, hks, -⟩
              have hku : ciStarts k u = true := ciStarts_glue (H k hkmem) hks
              exact absurd (hasKwStart_of_mem hkmem hku)
                (Bool.eq_false_iff.mp (hl.2 u hu hune))
            · exact Bool.eq_false_iff.mpr fun hx => hlive hx

/-- A text with no live position is a fixed point of the substitution. -/
theorem reSubKw_of_noLive {kws : List (List Char)} :
    ∀ {o : List Char}, noLive kws o → reSubKw kws o = o := by
  intro o
  induction o with
  | nil => intro _; rfl
  | cons c rest ih =>
      intro hno
      have hhead : liveAt kws (c :: rest) = false :=
        hno _ (List.suffix_refl _)
      have hm : altMatchLen kws (c :: rest) = none ∨
          altMatchLen kws (c :: rest) = some 0 := by
        unfold liveAt at hhead
        rcases hx : altMatchLen kws (c :: rest) with _ | L
        · exact Or.inl rfl
        · rcases L with _ | n
          · exact Or.inr rfl
          · rw [hx] at hhead
            cases hhead
      rw [reSubKw_cons_keep hm]
      rw [ih fun t ht => hno t (ht.trans (List.suffix_cons c rest))]

/-- The substitution's output has no live position. -/
theorem noLive_reSubKw {kws : List (List Char)} (H : ∀ k ∈ kws, '\n' ∉ k)
    (s : List Char) : noLive kws (reSubKw kws s) := by
  rw [reSubKw_factor H s.length s (Nat.le_refl _)]
  refine noLive_joinNl H _ fun l hl => ?_
  rcases List.mem_map.mp hl with ⟨l', hl', rfl⟩
  exact truncLine_clean (mem_splitNl_no_newline hl')

/-- Having no live position passes to prefixes (under newline-free
keywords). -/
theorem noLive_front {kws : List (List Char)} (H : ∀ k ∈ kws, '\n' ∉ k)
    {o p : List Char} (hno : noLive kws o) (hp : p <+: o) :
    noLive kws p := by
  intro t ht
  rcases t with _ | ⟨c, t₀⟩
  · exact liveAt_nil kws
  · by_cases hc : c = '\n'
    · subst hc
      exact liveAt_newline H t₀
    · rw [Bool.eq_false_iff]
      intro hlive
      rcases liveAt_true_elim hlive with ⟨L, hm, -⟩
      rcases altMatchLen_some hm with ⟨k, hkmem, hks, -⟩
      rcases ht with ⟨r, hr⟩
      rcases hp with ⟨q, hq⟩
      have hts : (c :: t₀) ++ q <:+ o := by
        refine ⟨r, ?_⟩
        rw [← hq, ← hr]
        simp
      have hks' : ciStarts k ((c :: t₀) ++ q) = true :=
        ciStarts_extend hks (List.prefix_append _ _)
      rcases altMatchLen_isSome hkmem hks' with ⟨L', hm'⟩
      have hpos : 0 < L' := altMatchLen_pos hc (by simpa using hm')
      have : liveAt kws ((c :: t₀) ++ q) = true := by
        unfold liveAt
        rw [show altMatchLen kws ((c :: t₀) ++ q) = some L' from hm']
        rcases L' with _ | n
        · exact absurd hpos (by simp)
        · rfl
      rw [hno _ hts] at this
      cases this

/-- The stripped text is a prefix of a suffix of the original. -/
theorem pyStrip_decomp (o : List Char) :
    pyStrip o <+: o.dropWhile pySpace ∧ o.dropWhile pySpace <:+ o := by
  refine ⟨?_, List.dropWhile_suffix pySpace⟩
  unfold pyStrip
  refine List.reverse_suffix.mp ?_
  rw [List.reverse_reverse]
  exact List.dropWhile_suffix pySpace

/-- Stripping preserves the absence of live positions. -/
theorem noLive_pyStrip {kws : List (List Char)} (H : ∀ k ∈ kws, '\n' ∉ k)
    {o : List Char} (hno : noLive kws o) : noLive kws (pyStrip o) := by
  rcases pyStrip_decomp o with ⟨hpre, hsuf⟩
  refine noLive_front H (fun t ht => hno t (ht.trans hsuf)) hpre

/-- A list already starting past the dropped prefix drops nothing. -/
theorem dropWhile_eq_self_front {p : Char → Bool} {b l : List Char}
    (hb : b <+: l) (hl : l.dropWhile p = l) : b.dropWhile p = b := by
  cases b with
  | nil => rfl
  | cons x b' =>
      rcases l with _ | ⟨y, l'⟩
      · exact absurd (List.eq_nil_of_prefix_nil hb) (by simp)
      · rcases List.cons_prefix_cons.mp hb with ⟨rfl, -⟩
        rw [List.dropWhile_cons] at hl ⊢
        by_cases hp : p x = true
        · rw [if_pos hp] at hl
          have : (l'.dropWhile p).length ≤ l'.length :=
            (List.dropWhile_suffix p).length_le
          have hlen := congrArg List.length hl
          simp only [List.length_cons] at hlen
          omega
        · rw [if_neg hp]

/-- `str.strip()` is idempotent. -/
theorem pyStrip_idem (o : List Char) : pyStrip (pyStrip o) = pyStrip o := by
  have hA : (o.dropWhile pySpace).dropWhile pySpace = o.dropWhile pySpace :=
    List.dropWhile_idempotent pySpace o
  rcases pyStrip_decomp o with ⟨hpre, -⟩
  have h1 : (pyStrip o).dropWhile pySpace = pyStrip o :=
    dropWhile_eq_self_front hpre hA
  have h2 : (pyStrip o).reverse.dropWhile pySpace = (pyStrip o).reverse := by
    have hrr : (pyStrip o).reverse =
        ((o.dropWhile pySpace).reverse).dropWhile pySpace := by
      unfold pyStrip
      rw [List.reverse_reverse]
    rw [hrr, List.dropWhile_idempotent]
  show ((((pyStrip o).dropWhile pySpace).reverse).dropWhile pySpace).reverse =
    pyStrip o
  rw [h1, h2, List.reverse_reverse]

/-- C5 counterexample.  With the configured keyword list `["a\nb"]` (a
keyword containing a newline) on the body `"aa\nbJ\nbQ"`, one cleaning
yields `"a\nbQ"` — which still contains the keyword, because the deletion
glued text from before the match to the following line — and a second
cleaning deletes it: `clean_body` is not idempotent for every configured
keyword list. -/
theorem c5_counterexample :
    clean_body [String.toList "a\nb"]
        (clean_body [String.toList "a\nb"] (String.toList "aa\nbJ\nbQ")) ≠
      clean_body [String.toList "a\nb"] (String.toList "aa\nbJ\nbQ") := by
  decide

/-- C5 amended.  For every text and every configured cleanup-keyword list
in which no keyword contains a newline character — which includes the
source's default list — `clean_body` is idempotent: cleaning an
already-cleaned body leaves it unchanged. -/
theorem c5_amended_clean_body_idempotent (kws : List (List Char))
    (text : List Char) (H : ∀ k ∈ kws, '\n' ∉ k) :
    clean_body kws (clean_body kws text) = clean_body kws text := by
  have h2 : noLive kws (clean_body kws text) :=
    noLive_pyStrip H (noLive_reSubKw H text)
  show pyStrip (reSubKw kws (clean_body kws text)) = clean_body kws text
  rw [reSubKw_of_noLive h2]
  exact pyStrip_idem (reSubKw kws text)

/-- Witness for C5 amended: the default cleanup keywords (none contains a
newline) on a concrete two-line body. -/
theorem c5_amended_clean_body_idempotent_witness :
    clean_body bodyCleanupKeywords
        (clean_body bodyCleanupKeywords
          (String.toList "Hi. Thanks, Bob\nsecond line")) =
      clean_body bodyCleanupKeywords (String.toList "Hi. Thanks, Bob\nsecond line") :=
  c5_amended_clean_body_idempotent bodyCleanupKeywords
    (String.toList "Hi. Thanks, Bob\nsecond line") (by decide)
